import Mathlib

/-!
Verification development for the `getBalance` repository.

The repository exposes an HTTP handler (`src/api/bitcoinBalance.js`,
with a near-duplicate variant in `src/unnamed/part_000`) that derives an
Electrum script hash ("lookup key") from each Bitcoin address, queries a
remote Electrum endpoint over a failover list, and aggregates balances
and transaction counts.

The embedding below follows `src/api/bitcoinBalance.js`.  External
library primitives (bitcoinjs-lib address decoding, SHA-256, the
Electrum transport) are out of the repository's scope; they are modelled
at their interface: decoding results are carried on the `Address` value,
SHA-256 is an abstract function parameter `sha`, and the remote endpoint
is a `World` of response functions.  All remote interaction is recorded
as an explicit event trace.
-/

/-- Bytes are modelled as natural numbers (each < 256 in practice). -/
abbrev Byte := Nat

/-- Abstract SHA-256: the code only pipes bytes through it, so every
claim is proved for an arbitrary digest function. -/
abbrev Sha := List Byte → List Byte

/-- Result of the bitcoinjs-lib decoders on an address string, as the
source observes it: `fromBase58Check` yields a version byte and a hash
payload, `fromBech32` yields a human-readable part, a witness version
and a data program; `failed` models a decoder throw. -/
inductive Decoded where
  | base58 (version : Nat) (hash : List Byte)
  | bech32 (hrp : String) (witVer : Nat) (data : List Byte)
  | failed
deriving DecidableEq

/-- An address string together with the decoding the library would
produce for it. -/
structure Address where
  str : String
  decoded : Decoded
deriving DecidableEq

/-- Character-list version of JS `String.prototype.startsWith`. -/
def charsLeadWith : List Char → List Char → Bool
  | [], _ => true
  | _ :: _, [] => false
  | c :: cs, d :: ds => c == d && charsLeadWith cs ds

/-- JS `s.startsWith(p)` as used by `getScriptHash`. -/
def strStartsWith (s p : String) : Bool := charsLeadWith p.data s.data

/-- Model of bitcoinjs `address.toOutputScript` success (used by
`isValidAddress` in the source): mainnet base58 version 0 or 5 with a
20-byte hash, or bech32 hrp `bc` witness version 0 with a 20- or
32-byte program. -/
def isValidAddress (a : Address) : Bool :=
  match a.decoded with
  | .base58 v h => (v == 0 || v == 5) && h.length == 20
  | .bech32 hrp ver d => hrp == "bc" && ver == 0 && (d.length == 20 || d.length == 32)
  | .failed => false

def OP_DUP : Byte := 0x76
def OP_HASH160 : Byte := 0xa9
def OP_EQUALVERIFY : Byte := 0x88
def OP_CHECKSIG : Byte := 0xac
def OP_EQUAL : Byte := 0x87
def OP_0 : Byte := 0x00

/-- Minimal push of a short data blob in script serialization (length
byte followed by the data); all payloads here are 20 or 32 bytes. -/
def pushData (d : List Byte) : List Byte := d.length :: d

/-- `bitcoin.script.compile([OP_DUP, OP_HASH160, hash, OP_EQUALVERIFY,
OP_CHECKSIG])` from the legacy branch of `getScriptHash`. -/
def compileP2pkh (h : List Byte) : List Byte :=
  [OP_DUP, OP_HASH160] ++ pushData h ++ [OP_EQUALVERIFY, OP_CHECKSIG]

/-- Output script produced by `bitcoin.payments.p2sh`. -/
def p2shOutput (h : List Byte) : List Byte :=
  [OP_HASH160] ++ pushData h ++ [OP_EQUAL]

/-- Output script produced by `bitcoin.payments.p2wpkh`. -/
def p2wpkhOutput (h : List Byte) : List Byte := [OP_0] ++ pushData h

/-- Output script produced by `bitcoin.payments.p2wsh`. -/
def p2wshOutput (h : List Byte) : List Byte := [OP_0] ++ pushData h

/-- The `output` variable of `getScriptHash`: the branch on the string's
leading characters, each branch deferring to the decoder result.  The
`p2sh` payment validates version 5 and a 20-byte hash and throws
otherwise; the bech32 branch keys only on program length, and any other
length leaves `output` undefined. -/
def getScriptOutput (a : Address) : Option (List Byte) :=
  if strStartsWith a.str "1" then
    match a.decoded with
    | .base58 _ h => some (compileP2pkh h)
    | _ => none
  else if strStartsWith a.str "3" then
    match a.decoded with
    | .base58 v h => if v = 5 ∧ h.length = 20 then some (p2shOutput h) else none
    | _ => none
  else if strStartsWith a.str "bc1" then
    match a.decoded with
    | .bech32 _ _ d =>
      if d.length = 20 then some (p2wpkhOutput d)
      else if d.length = 32 then some (p2wshOutput d)
      else none
    | _ => none
  else none

def hexDigit (n : Nat) : Char :=
  if n < 10 then Char.ofNat (48 + n) else Char.ofNat (87 + n)

def hexByte (b : Byte) : List Char := [hexDigit (b / 16 % 16), hexDigit (b % 16)]

/-- `Buffer.toString('hex')`. -/
def hexEncode (bs : List Byte) : String := String.mk (bs.flatMap hexByte)

/-- `getScriptHash` from the source: build the output script, SHA-256 it,
reverse the digest, hex-encode; `none` models the `null` return. -/
def getScriptHash (sha : Sha) (a : Address) : Option String :=
  match getScriptOutput a with
  | none => none
  | some output => some (hexEncode ((sha output).reverse))

/-- `getScriptHash` applied to a possibly-undefined address (the source
reads `addressesToCheck[0]`, which is `undefined` on an empty array; the
resulting `TypeError` is caught inside `getScriptHash` and `null` is
returned). -/
def getScriptHashU (sha : Sha) : Option Address → Option String
  | none => none
  | some a => getScriptHash sha a

/-- The spec's address kinds (§3, §4.1). -/
inductive AddressKind where
  | legacyP2PKH (payload : List Byte)
  | scriptP2SH (payload : List Byte)
  | segwitV0 (program : List Byte)
deriving DecidableEq

/-- Modelled from the spec's words (§4.1): classification by
encoding/template; leading `1` base58 p2pkh with 20-byte payload,
leading `3` base58 p2sh with a 20-byte payload, leading `bc1` bech32
with a 20- or 32-byte program; anything else is invalid (`none`). -/
def classifySpec (a : Address) : Option AddressKind :=
  match a.decoded with
  | .base58 v h =>
    if v = 0 ∧ strStartsWith a.str "1" = true ∧ h.length = 20 then some (.legacyP2PKH h)
    else if v = 5 ∧ strStartsWith a.str "3" = true ∧ h.length = 20 then some (.scriptP2SH h)
    else none
  | .bech32 hrp _ d =>
    if hrp = "bc" ∧ strStartsWith a.str "bc1" = true ∧ (d.length = 20 ∨ d.length = 32) then
      some (.segwitV0 d)
    else none
  | .failed => none

/-- Modelled from the spec's words (§4.2): the kind-specific locking
script templates. -/
def specScript : AddressKind → List Byte
  | .legacyP2PKH p => [OP_DUP, OP_HASH160] ++ pushData p ++ [OP_EQUALVERIFY, OP_CHECKSIG]
  | .scriptP2SH p => [OP_HASH160] ++ pushData p ++ [OP_EQUAL]
  | .segwitV0 p => [OP_0] ++ pushData p

/-- Modelled from the spec's words (§4.2): digest the kind-specific
script, reverse the digest's byte order, hex-encode. -/
def deriveSpec (sha : Sha) (k : AddressKind) : String :=
  hexEncode ((sha (specScript k)).reverse)

/-- Well-formedness of an `Address` value: facts about base58/bech32
encodings that the library guarantees and that tie the decoded form to
the string's leading characters (a 21-byte base58check payload, leading
digit `1` exactly for version byte 0, version 5 rendering with leading
`3`, and a `bc`-hrp bech32 string starting with `bc1`). -/
def WFAddress (a : Address) : Prop :=
  match a.decoded with
  | .base58 v h =>
    h.length = 20 ∧ (strStartsWith a.str "1" = true ↔ v = 0) ∧
      (v = 5 → strStartsWith a.str "3" = true)
  | .bech32 hrp _ _ =>
    (strStartsWith a.str "bc1" = true ↔ hrp = "bc") ∧
      (hrp = "bc" →
        strStartsWith a.str "1" = false ∧ strStartsWith a.str "3" = false)
  | .failed => True

instance (a : Address) : Decidable (WFAddress a) := by
  unfold WFAddress
  cases a.decoded <;> infer_instance

/-- An unspent output as returned by `blockchainScripthash_listunspent`;
only `value` (base-unit amount) is read by the code. -/
structure Utxo where
  value : Nat
deriving DecidableEq

/-- A history entry as returned by `blockchainScripthash_getHistory`;
only `height` is read (`≤ 0` marks unconfirmed/mempool entries). -/
structure HistTx where
  height : Int
deriving DecidableEq

/-- The remote side: connection success per endpoint and the two query
responses per (endpoint, lookup key); `none` models a remote failure.
The key is an `Option String` because the source can pass the `null`
produced by `getScriptHash` straight into a query. -/
structure World where
  connectOK : String → Bool
  listUnspent : String → Option String → Option (List Utxo)
  getHistory : String → Option String → Option (List HistTx)

/-- Observable events of one request: connection lifecycle and the
individual remote calls with the key that was sent. -/
inductive Ev where
  | connect (server : String)
  | connectFail (server : String)
  | close
  | listUnspentCall (server : String) (key : Option String)
  | getHistoryCall (server : String) (key : Option String)
deriving DecidableEq

/-- The fields of the object literal returned by `getAddressDetails`.
`balance` is a rational: the JS number arithmetic on these values
(integer sums below 2^53, and one division by 1e8) is exact, and the
embedding keeps it exact to expose where the division happens. -/
structure Details where
  address : Option Address
  balance : ℚ
  confirmedTransactions : Nat
  unconfirmedTransactions : Nat
  totalTransactions : Nat
deriving DecidableEq

/-- The `history.forEach` loop: fold accumulating the pair
(confirmedTransactions, unconfirmedTransactions). -/
def countTx (history : List HistTx) : Nat × Nat :=
  history.foldl (fun p tx => if tx.height > 0 then (p.1 + 1, p.2) else (p.1, p.2 + 1)) (0, 0)

/-- `getAddressDetails(address, electrumClient, returnInSatoshi)`:
derive the script hash, list unspent outputs, sum their values, convert
to BTC by `/ 1e8` unless `returnInSatoshi`, fetch history and count
confirmed/unconfirmed entries.  A failing remote call throws, which the
function rethrows (`none`).  The returned trace lists the remote calls
made. -/
def getAddressDetails (sha : Sha) (w : World) (srv : String) (address : Option Address)
    (returnInSatoshi : Bool) : Option Details × List Ev :=
  let scriptHash := getScriptHashU sha address
  match w.listUnspent srv scriptHash with
  | none => (none, [.listUnspentCall srv scriptHash])
  | some utxos =>
    let balance : ℚ := ((utxos.map Utxo.value).sum : Nat)
    let balanceBTC : ℚ := if returnInSatoshi then balance else balance / 100000000
    match w.getHistory srv scriptHash with
    | none => (none, [.listUnspentCall srv scriptHash, .getHistoryCall srv scriptHash])
    | some history =>
      let c := countTx history
      (some { address := address
              balance := if returnInSatoshi then balance else balanceBTC
              confirmedTransactions := c.1
              unconfirmedTransactions := c.2
              totalTransactions := history.length },
        [.listUnspentCall srv scriptHash, .getHistoryCall srv scriptHash])

/-- `Number(x.toFixed(8))` on a non-negative exact value: round to 8
decimal places. -/
def toFixed8 (q : ℚ) : ℚ := ((Rat.floor (q * 100000000 + 1 / 2) : ℤ) : ℚ) / 100000000

/-- Responses the handler can send.  `serverError` is the 500 sent from
the outer catch (in particular after "All servers failed to respond.");
`methodNotAllowed` is the 405. -/
inductive Resp where
  | methodNotAllowed
  | singleOk (address : Option Address) (balanceBTC : ℚ)
      (confirmedTransactions unconfirmedTransactions totalTransactions : Nat)
  | multiOk (addressesDetails : List Details) (totalBalanceSAT : ℚ)
      (totalTransactions totalConfirmedTransactions totalUnconfirmedTransactions : Nat)
      (totalAddressesFetched : Nat)
  | serverError
deriving DecidableEq

/-- `Promise.all(addressesToCheck.map(address => getAddressDetails(address,
client, isMulti)))` for the multi branch: every per-address promise must
resolve; one rejection rejects the whole batch.  The trace is the
sequential scheduling of the concurrent queries. -/
def runAll (sha : Sha) (w : World) (srv : String) : List Address → Option (List Details) × List Ev
  | [] => (some [], [])
  | a :: rest =>
    match getAddressDetails sha w srv (some a) true with
    | (none, evs) => (none, evs)
    | (some d, evs) =>
      match runAll sha w srv rest with
      | (none, evs') => (none, evs ++ evs')
      | (some ds, evs') => (some (d :: ds), evs ++ evs')

/-- The body of one iteration of the server loop after a successful
connect: the single-address branch (`!isMulti`) or the multi branch with
its aggregation; `none` models the thrown `serverError`. -/
def attemptServer (sha : Sha) (w : World) (multi : Bool) (addrs : List Address)
    (srv : String) : Option Resp × List Ev :=
  if multi = false then
    match getAddressDetails sha w srv addrs.head? false with
    | (none, evs) => (none, evs)
    | (some d, evs) =>
      (some (.singleOk d.address (toFixed8 d.balance) d.confirmedTransactions
        d.unconfirmedTransactions d.totalTransactions), evs)
  else
    match runAll sha w srv addrs with
    | (none, evs) => (none, evs)
    | (some results, evs) =>
      (some (.multiOk results ((results.map Details.balance).sum)
        ((results.map Details.totalTransactions).sum)
        ((results.map Details.confirmedTransactions).sum)
        ((results.map Details.unconfirmedTransactions).sum)
        results.length), evs)

/-- `for (const server of serversToTry) { try ... catch ... finally }`:
connect, attempt the work, close in `finally` on every path (the close
after a failed connect models `if (client) client.close()` on the
constructed but unconnected client); after the loop the handler throws
"All servers failed to respond.", surfaced as the 500 `serverError`. -/
def serverLoop (sha : Sha) (w : World) (multi : Bool) (addrs : List Address) :
    List String → Resp × List Ev
  | [] => (.serverError, [])
  | srv :: rest =>
    if w.connectOK srv then
      match attemptServer sha w multi addrs srv with
      | (some resp, evs) => (resp, .connect srv :: (evs ++ [.close]))
      | (none, evs) =>
        let r := serverLoop sha w multi addrs rest
        (r.1, .connect srv :: (evs ++ [.close] ++ r.2))
    else
      let r := serverLoop sha w multi addrs rest
      (r.1, .connectFail srv :: .close :: r.2)

/-- `[...new Set(addressesToCheck)]`: JS `Set` de-duplication by the
address string, keeping first occurrences in insertion order; `seen`
is the set built so far. -/
def dedupAux (seen : List String) : List Address → List Address
  | [] => []
  | a :: l => if a.str ∈ seen then dedupAux seen l else a :: dedupAux (a.str :: seen) l

def dedupByStr (l : List Address) : List Address := dedupAux [] l

/-- The working set: `[...new Set(addressesToCheck)].filter(isValidAddress)`. -/
def workingSet (l : List Address) : List Address := (dedupByStr l).filter isValidAddress

/-- The hardcoded fallback Electrum servers of `bitcoinBalance.js`. -/
def fallbackServers : List String :=
  ["bolt.schulzemic.net:50002", "de.poiuty.com:50002", "electrum.kcicom.net:50002",
    "electrum.blockstream.info:50002", "bitcoin.aranguren.org:50002",
    "electrum.jochen-hoenicke.de:50006", "vmd104012.contaboserver.net:50002",
    "bitcoin.grey.pw:50002", "btc.aftrek.org:50002"]

/-- The request fields the handler reads.  `addressList` models
`req.body.addresses.split(',').map(trim)` with each entry carrying its
decode result; `server := none` models an absent/empty (falsy) server
field; `isFromParameter` is already the `=== true` comparison. -/
structure Req where
  method : String
  addressList : List Address
  multi : Bool
  server : Option String
  isFromParameter : Bool

/-- `isFromParameter && specifiedServer ? [specifiedServer] : fallbackServers`. -/
def serversToTry (req : Req) : List String :=
  match req.isFromParameter, req.server with
  | true, some s => [s]
  | _, _ => fallbackServers

/-- The exported request handler of `bitcoinBalance.js`: method check,
working-set construction, server selection, then the failover loop. -/
def handleRequest (sha : Sha) (w : World) (req : Req) : Resp × List Ev :=
  if req.method ≠ "POST" then (.methodNotAllowed, [])
  else serverLoop sha w req.multi (workingSet req.addressList) (serversToTry req)

/-- `totalAddressesFetched` of a batch response, if the response is a
batch success. -/
def fetchedOf : Resp → Option Nat
  | .multiOk _ _ _ _ _ n => some n
  | _ => none

/-- The per-address detail list of a batch response, if the response is
a batch success. -/
def detailsOf : Resp → Option (List Details)
  | .multiOk ds _ _ _ _ _ => some ds
  | _ => none

/-- The `totalBalanceSAT` of a batch response, if the response is a
batch success. -/
def totalBalanceOf : Resp → Option ℚ
  | .multiOk _ tb _ _ _ _ => some tb
  | _ => none

/-- The query events (the two Electrum calls); connection lifecycle
events are not queries. -/
def isQueryEv : Ev → Bool
  | .listUnspentCall _ _ => true
  | .getHistoryCall _ _ => true
  | _ => false

/-- The lookup key an event sends to the remote side, for query events. -/
def evKey : Ev → Option (Option String)
  | .listUnspentCall _ k => some k
  | .getHistoryCall _ k => some k
  | _ => none

/-- Every query event in the trace carries a present (non-`null`)
lookup key. -/
def queryKeysPresent (tr : List Ev) : Prop :=
  ∀ e ∈ tr, ∀ k, evKey e = some k → k.isSome = true

/-- The endpoints a trace attempted to connect to (successfully or not),
in order. -/
def attemptedServers (tr : List Ev) : List String :=
  tr.filterMap fun e =>
    match e with
    | .connect s => some s
    | .connectFail s => some s
    | _ => none

/-- Number of open connections after a list of events, starting from
`n` open connections: `connect` opens one, `close` closes one (closing
with none open is the idempotent close of a never-connected client). -/
def openAfterFrom (n : Nat) (tr : List Ev) : Nat :=
  tr.foldl
    (fun m e =>
      match e with
      | .connect _ => m + 1
      | .close => m - 1
      | _ => m)
    n

/-- Number of open connections after a list of events. -/
def openAfter (tr : List Ev) : Nat := openAfterFrom 0 tr

/-- An endpoint fails either at connect time or during the attempted
unit of work. -/
def serverFails (sha : Sha) (w : World) (multi : Bool) (addrs : List Address)
    (srv : String) : Prop :=
  w.connectOK srv = false ∨ (attemptServer sha w multi addrs srv).1 = none

/-- Fixture digest function for concrete witnesses (the claims hold for
every digest function, so the identity suffices). -/
def shaX : Sha := fun bs => bs

/-- Fixture world: every endpoint reachable, every query answered with
empty results. -/
def wAll : World := ⟨fun _ => true, fun _ _ => some [], fun _ _ => some []⟩

/-- Fixture world: no endpoint reachable. -/
def wNone : World := ⟨fun _ => false, fun _ _ => none, fun _ _ => none⟩

/-- Fixture addresses: two valid legacy addresses with distinct
payloads, and one unclassifiable string. -/
def aL1 : Address := ⟨"1A", .base58 0 (List.replicate 20 0)⟩

def aL2 : Address := ⟨"1B", .base58 0 (List.replicate 20 1)⟩

def aL3 : Address := ⟨"1C", .base58 0 (List.replicate 20 2)⟩

def aBad : Address := ⟨"xyz", .failed⟩

/-- Fixture world in which exactly the queries for `aL2`'s lookup key
fail, and a single unspent output of 5 base units is reported otherwise. -/
def wFail2 : World :=
  ⟨fun _ => true,
    fun _ k => if k = getScriptHash shaX aL2 then none else some [⟨5⟩],
    fun _ k => if k = getScriptHash shaX aL2 then none else some []⟩

/-- Fixture world answering one unspent output of one base unit and a
three-entry history with heights 3, 0, -1. -/
def wOne : World :=
  ⟨fun _ => true, fun _ _ => some [⟨1⟩], fun _ _ => some [⟨3⟩, ⟨0⟩, ⟨-1⟩]⟩

/-- Fixture requests used by concrete witnesses. -/
def reqEmptySingle : Req := ⟨"POST", [], false, some "s:1", true⟩

def reqBadMulti : Req := ⟨"POST", [aBad], true, some "s:1", true⟩

def reqDupMulti : Req := ⟨"POST", [aL1, aL1, aL2], true, some "s:1", true⟩

def reqTwoSingle : Req := ⟨"POST", [aL1, aL2], false, some "s:1", true⟩

def reqOneSingle : Req := ⟨"POST", [aL1], false, some "s:1", true⟩

def reqTwoMulti : Req := ⟨"POST", [aL1, aL2], true, some "s:1", true⟩

theorem valid_output (a : Address) (hw : WFAddress a) (hv : isValidAddress a = true) :
    ∃ k, classifySpec a = some k ∧ getScriptOutput a = some (specScript k) := by
  obtain ⟨s, d⟩ := a
  cases d with
  | base58 v h =>
    obtain ⟨hlen, hiff, h5⟩ := hw
    simp only [isValidAddress, Bool.and_eq_true, Bool.or_eq_true, beq_iff_eq] at hv
    rcases hv.1 with hv0 | hv5
    · subst hv0
      have h1 : strStartsWith s "1" = true := hiff.mpr rfl
      exact ⟨.legacyP2PKH h,
        by simp [classifySpec, h1, hlen],
        by simp [getScriptOutput, h1, compileP2pkh, specScript]⟩
    · subst hv5
      have h1 : strStartsWith s "1" = false := by
        cases hb : strStartsWith s "1"
        · rfl
        · exact absurd (hiff.mp hb) (by decide)
      have h3 : strStartsWith s "3" = true := h5 rfl
      exact ⟨.scriptP2SH h,
        by simp [classifySpec, h1, h3, hlen],
        by simp [getScriptOutput, h1, h3, hlen, p2shOutput, specScript]⟩
  | bech32 hrp ver dat =>
    obtain ⟨hiff, hbc⟩ := hw
    simp only [isValidAddress, Bool.and_eq_true, Bool.or_eq_true, beq_iff_eq] at hv
    obtain ⟨⟨hhrp, _⟩, hlen⟩ := hv
    obtain ⟨h1, h3⟩ := hbc hhrp
    have hb : strStartsWith s "bc1" = true := hiff.mpr hhrp
    have hlen' : dat.length = 20 ∨ dat.length = 32 := by
      rcases hlen with h | h
      · exact Or.inl (by exact_mod_cast h)
      · exact Or.inr (by exact_mod_cast h)
    refine ⟨.segwitV0 dat, by simp [classifySpec, hhrp, hb, hlen'], ?_⟩
    rcases hlen' with h20 | h32
    · simp [getScriptOutput, h1, h3, hb, h20, p2wpkhOutput, specScript]
    · simp [getScriptOutput, h1, h3, hb, h32, p2wshOutput, specScript]
  | failed => simp [isValidAddress] at hv

theorem getScriptHash_isSome (sha : Sha) (a : Address) (hw : WFAddress a)
    (hv : isValidAddress a = true) : (getScriptHash sha a).isSome = true := by
  obtain ⟨k, _, ho⟩ := valid_output a hw hv
  simp [getScriptHash, ho]

theorem classify_none_hash_none (sha : Sha) (a : Address) (hw : WFAddress a)
    (hc : classifySpec a = none) : getScriptHash sha a = none := by
  obtain ⟨s, d⟩ := a
  suffices h : getScriptOutput ⟨s, d⟩ = none by simp [getScriptHash, h]
  cases d with
  | base58 v h =>
    obtain ⟨hlen, hiff, h5⟩ := hw
    simp only [classifySpec, hlen, and_true, ite_eq_right_iff] at hc
    have h1 : strStartsWith s "1" = false := by
      cases hb : strStartsWith s "1"
      · rfl
      · have hv0 := hiff.mp hb
        subst hv0
        simp [hb] at hc
    have hne5 : v ≠ 5 := by
      intro hv5
      subst hv5
      simp [h5 rfl] at hc
    cases hb3 : strStartsWith s "3" <;>
      cases hbc : strStartsWith s "bc1" <;>
        simp [getScriptOutput, h1, hb3, hbc, hne5]
  | bech32 hrp ver dat =>
    obtain ⟨hiff, hbc⟩ := hw
    cases hb : strStartsWith s "bc1" with
    | true =>
      have hhrp := hiff.mp hb
      obtain ⟨h1, h3⟩ := hbc hhrp
      have hlen : ¬(dat.length = 20 ∨ dat.length = 32) := by
        intro hl
        simp [classifySpec, hhrp, hb, hl] at hc
      simp only [not_or] at hlen
      simp [getScriptOutput, h1, h3, hb, hlen.1, hlen.2]
    | false =>
      cases hb1 : strStartsWith s "1" <;>
        cases hb3 : strStartsWith s "3" <;>
          simp [getScriptOutput, hb1, hb3, hb]
  | failed =>
    cases hb1 : strStartsWith s "1" <;>
      cases hb3 : strStartsWith s "3" <;>
        cases hbc : strStartsWith s "bc1" <;>
          simp [getScriptOutput, hb1, hb3, hbc]

/-- Claim C1: for every valid address, the lookup key is obtained by
building the kind-specific locking script (legacy p2pkh:
`OP_DUP OP_HASH160 <20-byte payload> OP_EQUALVERIFY OP_CHECKSIG`;
p2sh: `OP_HASH160 <20-byte payload> OP_EQUAL`; segwit v0: `OP_0`
followed by the 20- or 32-byte program), hashing that script with
SHA-256, reversing the digest's byte order and hex-encoding it. -/
theorem C1_lookup_key (sha : Sha) (a : Address) (hw : WFAddress a)
    (hv : isValidAddress a = true) :
    ∃ k, classifySpec a = some k ∧ getScriptHash sha a = some (deriveSpec sha k) := by
  obtain ⟨k, hc, ho⟩ := valid_output a hw hv
  exact ⟨k, hc, by simp [getScriptHash, ho, deriveSpec]⟩

theorem C1_lookup_key_witness :
    ∃ k, classifySpec aL1 = some k ∧ getScriptHash shaX aL1 = some (deriveSpec shaX k) :=
  C1_lookup_key shaX aL1 (by decide) (by decide)

theorem getAddressDetails_trace (sha : Sha) (w : World) (srv : String) (a : Option Address)
    (ri : Bool) :
    (getAddressDetails sha w srv a ri).2 = [.listUnspentCall srv (getScriptHashU sha a)] ∨
      (getAddressDetails sha w srv a ri).2 =
        [.listUnspentCall srv (getScriptHashU sha a),
          .getHistoryCall srv (getScriptHashU sha a)] := by
  cases hl : w.listUnspent srv (getScriptHashU sha a) with
  | none => simp [getAddressDetails, hl]
  | some utxos =>
    cases hh : w.getHistory srv (getScriptHashU sha a) with
    | none => simp [getAddressDetails, hl, hh]
    | some history => simp [getAddressDetails, hl, hh]

theorem getAddressDetails_keys (sha : Sha) (w : World) (srv : String) (a : Option Address)
    (ri : Bool) :
    ∀ e ∈ (getAddressDetails sha w srv a ri).2, ∀ k, evKey e = some k →
      k = getScriptHashU sha a := by
  intro e he k hk
  rcases getAddressDetails_trace sha w srv a ri with h | h <;>
    rw [h] at he <;> simp at he
  · subst he
    exact (by simpa [evKey] using hk : getScriptHashU sha a = k).symm
  · rcases he with he | he <;> subst he <;>
      exact (by simpa [evKey] using hk : getScriptHashU sha a = k).symm

theorem getAddressDetails_query_only (sha : Sha) (w : World) (srv : String) (a : Option Address)
    (ri : Bool) : ∀ e ∈ (getAddressDetails sha w srv a ri).2, isQueryEv e = true := by
  intro e he
  rcases getAddressDetails_trace sha w srv a ri with h | h <;> rw [h] at he <;> simp at he
  · subst he; rfl
  · rcases he with he | he <;> subst he <;> rfl

theorem runAll_keys (sha : Sha) (w : World) (srv : String) (l : List Address) :
    ∀ e ∈ (runAll sha w srv l).2, ∀ k, evKey e = some k →
      ∃ a ∈ l, k = getScriptHash sha a := by
  induction l with
  | nil => intro e he; simp [runAll] at he
  | cons a rest ih =>
    intro e he k hk
    rcases hd : getAddressDetails sha w srv (some a) true with ⟨res, evs⟩
    have hkey : ∀ e ∈ evs, ∀ k, evKey e = some k → k = getScriptHash sha a := by
      have := getAddressDetails_keys sha w srv (some a) true
      rw [hd] at this
      exact this
    rw [runAll, hd] at he
    cases res with
    | none =>
      exact ⟨a, by simp, hkey e he k hk⟩
    | some d =>
      rcases hr : runAll sha w srv rest with ⟨res', evs'⟩
      rw [hr] at he
      cases res' with
      | none =>
        simp at he
        rcases he with he | he
        · exact ⟨a, by simp, hkey e he k hk⟩
        · have := ih e (by rw [hr]; exact he) k hk
          rcases this with ⟨b, hb, hbk⟩
          exact ⟨b, by simp [hb], hbk⟩
      | some ds =>
        simp at he
        rcases he with he | he
        · exact ⟨a, by simp, hkey e he k hk⟩
        · have := ih e (by rw [hr]; exact he) k hk
          rcases this with ⟨b, hb, hbk⟩
          exact ⟨b, by simp [hb], hbk⟩

theorem runAll_query_only (sha : Sha) (w : World) (srv : String) (l : List Address) :
    ∀ e ∈ (runAll sha w srv l).2, isQueryEv e = true := by
  induction l with
  | nil => intro e he; simp [runAll] at he
  | cons a rest ih =>
    intro e he
    rcases hd : getAddressDetails sha w srv (some a) true with ⟨res, evs⟩
    have hq : ∀ e ∈ evs, isQueryEv e = true := by
      have := getAddressDetails_query_only sha w srv (some a) true
      rw [hd] at this
      exact this
    rw [runAll, hd] at he
    cases res with
    | none => exact hq e he
    | some d =>
      rcases hr : runAll sha w srv rest with ⟨res', evs'⟩
      rw [hr] at he
      cases res' with
      | none =>
        simp at he
        rcases he with he | he
        · exact hq e he
        · exact ih e (by rw [hr]; exact he)
      | some ds =>
        simp at he
        rcases he with he | he
        · exact hq e he
        · exact ih e (by rw [hr]; exact he)

theorem attemptServer_keys (sha : Sha) (w : World) (multi : Bool) (addrs : List Address)
    (srv : String) :
    ∀ e ∈ (attemptServer sha w multi addrs srv).2, ∀ k, evKey e = some k →
      (multi = false ∧ k = getScriptHashU sha addrs.head?) ∨
        ∃ a ∈ addrs, k = getScriptHash sha a := by
  intro e he k hk
  cases multi with
  | false =>
    rcases hd : getAddressDetails sha w srv addrs.head? false with ⟨res, evs⟩
    have hkey := getAddressDetails_keys sha w srv addrs.head? false
    rw [hd] at hkey
    simp [attemptServer, hd] at he
    cases res with
    | none => exact Or.inl ⟨rfl, hkey e he k hk⟩
    | some d => exact Or.inl ⟨rfl, hkey e he k hk⟩
  | true =>
    rcases hr : runAll sha w srv addrs with ⟨res, evs⟩
    have hkey := runAll_keys sha w srv addrs
    rw [hr] at hkey
    simp [attemptServer, hr] at he
    cases res with
    | none => exact Or.inr (hkey e he k hk)
    | some ds => exact Or.inr (hkey e he k hk)

theorem attemptServer_query_only (sha : Sha) (w : World) (multi : Bool) (addrs : List Address)
    (srv : String) : ∀ e ∈ (attemptServer sha w multi addrs srv).2, isQueryEv e = true := by
  intro e he
  cases multi with
  | false =>
    rcases hd : getAddressDetails sha w srv addrs.head? false with ⟨res, evs⟩
    have hq := getAddressDetails_query_only sha w srv addrs.head? false
    rw [hd] at hq
    simp [attemptServer, hd] at he
    cases res with
    | none => exact hq e he
    | some d => exact hq e he
  | true =>
    rcases hr : runAll sha w srv addrs with ⟨res, evs⟩
    have hq := runAll_query_only sha w srv addrs
    rw [hr] at hq
    simp [attemptServer, hr] at he
    cases res with
    | none => exact hq e he
    | some ds => exact hq e he

theorem attemptServer_not_error (sha : Sha) (w : World) (multi : Bool) (addrs : List Address)
    (srv : String) (r : Resp) (h : (attemptServer sha w multi addrs srv).1 = some r) :
    r ≠ .serverError ∧ r ≠ .methodNotAllowed := by
  cases multi with
  | false =>
    rcases hd : getAddressDetails sha w srv addrs.head? false with ⟨res, evs⟩
    simp [attemptServer, hd] at h
    cases res with
    | none => simp at h
    | some d =>
      simp at h
      subst h
      exact ⟨by simp, by simp⟩
  | true =>
    rcases hr : runAll sha w srv addrs with ⟨res, evs⟩
    simp [attemptServer, hr] at h
    cases res with
    | none => simp at h
    | some ds =>
      simp at h
      subst h
      exact ⟨by simp, by simp⟩

theorem serverLoop_keys (sha : Sha) (w : World) (multi : Bool) (addrs : List Address)
    (ss : List String) :
    ∀ e ∈ (serverLoop sha w multi addrs ss).2, ∀ k, evKey e = some k →
      (multi = false ∧ k = getScriptHashU sha addrs.head?) ∨
        ∃ a ∈ addrs, k = getScriptHash sha a := by
  induction ss with
  | nil => intro e he; simp [serverLoop] at he
  | cons srv rest ih =>
    intro e he k hk
    cases hc : w.connectOK srv with
    | true =>
      rcases ha : attemptServer sha w multi addrs srv with ⟨res, evs⟩
      have hkey := attemptServer_keys sha w multi addrs srv
      rw [ha] at hkey
      cases res with
      | some r =>
        simp [serverLoop, hc, ha] at he
        rcases he with he | he | he
        · subst he; simp [evKey] at hk
        · exact hkey e he k hk
        · subst he; simp [evKey] at hk
      | none =>
        simp [serverLoop, hc, ha] at he
        rcases he with he | he | he | he
        · subst he; simp [evKey] at hk
        · exact hkey e he k hk
        · subst he; simp [evKey] at hk
        · exact ih e he k hk
    | false =>
      simp [serverLoop, hc] at he
      rcases he with he | he | he
      · subst he; simp [evKey] at hk
      · subst he; simp [evKey] at hk
      · exact ih e he k hk

theorem attemptedServers_of_queries (l : List Ev) (h : ∀ e ∈ l, isQueryEv e = true) :
    attemptedServers l = [] := by
  induction l with
  | nil => rfl
  | cons e t ih =>
    have he := h e (by simp)
    have ht := ih fun x hx => h x (by simp [hx])
    cases e <;> simp [isQueryEv] at he <;>
      simpa [attemptedServers, List.filterMap_cons] using ht

theorem serverLoop_attempted (sha : Sha) (w : World) (multi : Bool) (addrs : List Address)
    (ss : List String) :
    ∃ t, attemptedServers (serverLoop sha w multi addrs ss).2 ++ t = ss := by
  induction ss with
  | nil => exact ⟨[], rfl⟩
  | cons srv rest ih =>
    obtain ⟨t, ht⟩ := ih
    have hqn : ∀ srv₀, attemptedServers (attemptServer sha w multi addrs srv₀).2 = [] :=
      fun srv₀ => attemptedServers_of_queries _ (attemptServer_query_only sha w multi addrs srv₀)
    cases hc : w.connectOK srv with
    | true =>
      rcases ha : attemptServer sha w multi addrs srv with ⟨res, evs⟩
      have hq : attemptedServers evs = [] := by
        have := hqn srv
        rw [ha] at this
        exact this
      cases res with
      | some r =>
        refine ⟨rest, ?_⟩
        simp [serverLoop, hc, ha, attemptedServers, List.filterMap_append,
          List.filterMap_cons]
        simpa [attemptedServers] using hq
      | none =>
        refine ⟨t, ?_⟩
        simp only [serverLoop, hc, if_pos rfl, ha]
        simp only [attemptedServers, List.filterMap_cons, List.filterMap_append] at ht ⊢
        simp only [attemptedServers] at hq
        simp [hq, ht]
    | false =>
      refine ⟨t, ?_⟩
      simp only [serverLoop, hc]
      simp only [attemptedServers, List.filterMap_cons] at ht ⊢
      simp [ht]

theorem serverLoop_cons_true (sha : Sha) (w : World) (multi : Bool) (addrs : List Address)
    (srv : String) (rest : List String) (hc : w.connectOK srv = true) :
    serverLoop sha w multi addrs (srv :: rest) =
      match attemptServer sha w multi addrs srv with
      | (some resp, evs) => (resp, .connect srv :: (evs ++ [.close]))
      | (none, evs) =>
        ((serverLoop sha w multi addrs rest).1,
          .connect srv :: (evs ++ [.close] ++ (serverLoop sha w multi addrs rest).2)) := by
  simp [serverLoop, hc]

theorem serverLoop_cons_false (sha : Sha) (w : World) (multi : Bool) (addrs : List Address)
    (srv : String) (rest : List String) (hc : w.connectOK srv = false) :
    serverLoop sha w multi addrs (srv :: rest) =
      ((serverLoop sha w multi addrs rest).1,
        .connectFail srv :: .close :: (serverLoop sha w multi addrs rest).2) := by
  simp [serverLoop, hc]

theorem serverLoop_error_iff (sha : Sha) (w : World) (multi : Bool) (addrs : List Address)
    (ss : List String) :
    (serverLoop sha w multi addrs ss).1 = .serverError ↔
      ∀ s ∈ ss, serverFails sha w multi addrs s := by
  induction ss with
  | nil => simp [serverLoop]
  | cons srv rest ih =>
    rw [List.forall_mem_cons]
    cases hc : w.connectOK srv with
    | true =>
      rcases ha : attemptServer sha w multi addrs srv with ⟨res, evs⟩
      rw [serverLoop_cons_true sha w multi addrs srv rest hc, ha]
      cases res with
      | some r =>
        constructor
        · intro h
          exact absurd h (attemptServer_not_error sha w multi addrs srv r (by rw [ha])).1
        · rintro ⟨h1, _⟩
          rcases h1 with h' | h'
          · rw [hc] at h'; cases h'
          · rw [ha] at h'; cases h'
      | none =>
        constructor
        · intro h
          exact ⟨Or.inr (by rw [ha]), ih.mp h⟩
        · rintro ⟨_, h2⟩
          exact ih.mpr h2
    | false =>
      rw [serverLoop_cons_false sha w multi addrs srv rest hc]
      constructor
      · intro h
        exact ⟨Or.inl hc, ih.mp h⟩
      · rintro ⟨_, h2⟩
        exact ih.mpr h2

theorem serverLoop_allfail_attempted (sha : Sha) (w : World) (multi : Bool)
    (addrs : List Address) (ss : List String)
    (h : ∀ s ∈ ss, serverFails sha w multi addrs s) :
    attemptedServers (serverLoop sha w multi addrs ss).2 = ss := by
  induction ss with
  | nil => rfl
  | cons srv rest ih =>
    have hrest := ih fun s hs => h s (by simp [hs])
    have hsrv := h srv (by simp)
    cases hc : w.connectOK srv with
    | true =>
      rcases ha : attemptServer sha w multi addrs srv with ⟨res, evs⟩
      have hq : attemptedServers evs = [] := by
        have := attemptedServers_of_queries _ (attemptServer_query_only sha w multi addrs srv)
        rw [ha] at this
        exact this
      cases res with
      | some r =>
        rcases hsrv with h' | h'
        · rw [hc] at h'; cases h'
        · rw [ha] at h'; cases h'
      | none =>
        rw [serverLoop_cons_true sha w multi addrs srv rest hc, ha]
        simp only [attemptedServers, List.filterMap_cons, List.filterMap_append] at hrest hq ⊢
        simp [hq, hrest]
    | false =>
      rw [serverLoop_cons_false sha w multi addrs srv rest hc]
      simp only [attemptedServers, List.filterMap_cons] at hrest ⊢
      simp [hrest]

theorem serverLoop_success (sha : Sha) (w : World) (multi : Bool) (addrs : List Address)
    (ss : List String) (r : Resp) (h : (serverLoop sha w multi addrs ss).1 = r)
    (hr : r ≠ .serverError) :
    ∃ s ∈ ss, w.connectOK s = true ∧ (attemptServer sha w multi addrs s).1 = some r := by
  induction ss with
  | nil =>
    exact absurd (by rw [← h]; rfl) hr
  | cons srv rest ih =>
    cases hc : w.connectOK srv with
    | true =>
      rcases ha : attemptServer sha w multi addrs srv with ⟨res, evs⟩
      rw [serverLoop_cons_true sha w multi addrs srv rest hc, ha] at h
      cases res with
      | some r' =>
        simp at h
        subst h
        exact ⟨srv, by simp, hc, by rw [ha]⟩
      | none =>
        simp at h
        obtain ⟨s, hs, h1, h2⟩ := ih h
        exact ⟨s, by simp [hs], h1, h2⟩
    | false =>
      rw [serverLoop_cons_false sha w multi addrs srv rest hc] at h
      simp at h
      obtain ⟨s, hs, h1, h2⟩ := ih h
      exact ⟨s, by simp [hs], h1, h2⟩

/-- Claim C4: the coordinator attempts each endpoint of the selected
list at most once, in list order (the attempted endpoints form an
initial segment of the list, with no duplicates when the list has
none); it reports the 500 "all servers failed" error exactly when every
endpoint fails at connect or query time, in which case every endpoint
was attempted exactly once. -/
theorem C4_failover_single_attempts (sha : Sha) (w : World) (multi : Bool)
    (addrs : List Address) (ss : List String) :
    (∃ t, attemptedServers (serverLoop sha w multi addrs ss).2 ++ t = ss) ∧
      (ss.Nodup → (attemptedServers (serverLoop sha w multi addrs ss).2).Nodup) ∧
      ((serverLoop sha w multi addrs ss).1 = .serverError ↔
        ∀ s ∈ ss, serverFails sha w multi addrs s) ∧
      ((∀ s ∈ ss, serverFails sha w multi addrs s) →
        attemptedServers (serverLoop sha w multi addrs ss).2 = ss) := by
  refine ⟨serverLoop_attempted sha w multi addrs ss, ?_,
    serverLoop_error_iff sha w multi addrs ss,
    fun h => serverLoop_allfail_attempted sha w multi addrs ss h⟩
  intro hnd
  obtain ⟨t, ht⟩ := serverLoop_attempted sha w multi addrs ss
  exact List.Nodup.of_append_left (ht ▸ hnd)

theorem C4_failover_single_attempts_witness :
    (serverLoop shaX wNone false [] ["a", "b", "c"]).1 = .serverError ∧
      attemptedServers (serverLoop shaX wNone false [] ["a", "b", "c"]).2 = ["a", "b", "c"] :=
  ⟨(C4_failover_single_attempts shaX wNone false [] ["a", "b", "c"]).2.2.1.mpr
      fun _ _ => Or.inl rfl,
    (C4_failover_single_attempts shaX wNone false [] ["a", "b", "c"]).2.2.2
      fun _ _ => Or.inl rfl⟩

theorem openAfterFrom_append (n : Nat) (l1 l2 : List Ev) :
    openAfterFrom n (l1 ++ l2) = openAfterFrom (openAfterFrom n l1) l2 := by
  simp [openAfterFrom, List.foldl_append]

theorem openAfterFrom_queries (n : Nat) (l : List Ev) (h : ∀ e ∈ l, isQueryEv e = true) :
    openAfterFrom n l = n := by
  induction l generalizing n with
  | nil => rfl
  | cons e t ih =>
    have he := h e (by simp)
    have ht := fun x hx => h x (List.mem_cons_of_mem e hx)
    cases e <;> simp [isQueryEv] at he <;> exact ih n ht

theorem append_split {α : Type} (p t xs ys : List α) (h : p ++ t = xs ++ ys) :
    (∃ r, p ++ r = xs) ∨ (∃ q, p = xs ++ q ∧ q ++ t = ys) := by
  induction xs generalizing p with
  | nil => exact Or.inr ⟨p, by simp, by simpa using h⟩
  | cons x xs ih =>
    cases p with
    | nil => exact Or.inl ⟨x :: xs, rfl⟩
    | cons a p' =>
      rw [List.cons_append, List.cons_append, List.cons.injEq] at h
      rcases ih p' h.2 with ⟨r, hr⟩ | ⟨q, hq1, hq2⟩
      · exact Or.inl ⟨r, by simp [h.1, hr]⟩
      · exact Or.inr ⟨q, by simp [h.1, hq1], hq2⟩

theorem mem_of_pref {α : Type} {p r l : List α} (h : p ++ r = l) {e : α} (he : e ∈ p) :
    e ∈ l := by
  subst h
  exact List.mem_append_left r he

theorem openAfter_conn_block (srv : String) (evs tr' p t : List Ev)
    (hq : ∀ e ∈ evs, isQueryEv e = true)
    (hind : ∀ p' t', p' ++ t' = tr' → openAfter p' ≤ 1)
    (h : p ++ t = .connect srv :: (evs ++ [.close] ++ tr')) : openAfter p ≤ 1 := by
  cases p with
  | nil => simp [openAfter, openAfterFrom]
  | cons a p' =>
    rw [List.cons_append, List.cons.injEq] at h
    obtain ⟨rfl, h'⟩ := h
    show openAfterFrom 1 p' ≤ 1
    rcases append_split p' t (evs ++ [.close]) tr' (by rw [h', List.append_assoc]) with
      ⟨r, hr⟩ | ⟨q, hq1, hq2⟩
    · rcases append_split p' r evs [.close] hr with ⟨r', hr'⟩ | ⟨q', hq1', hq2'⟩
      · rw [openAfterFrom_queries 1 p' fun e he => hq e (mem_of_pref hr' he)]
      · subst hq1'
        cases q' with
        | nil =>
          rw [List.append_nil, openAfterFrom_queries 1 evs hq]
        | cons c q'' =>
          rw [List.cons_append, List.cons.injEq] at hq2'
          obtain ⟨rfl, h3⟩ := hq2'
          obtain ⟨rfl, rfl⟩ := List.append_eq_nil.mp h3
          rw [openAfterFrom_append, openAfterFrom_queries 1 evs hq]
          simp [openAfterFrom]
    · subst hq1
      rw [openAfterFrom_append, openAfterFrom_append, openAfterFrom_queries 1 evs hq]
      have h0 : openAfterFrom 1 [Ev.close] = 0 := rfl
      rw [h0]
      exact hind q t hq2

theorem openAfter_conn_block_total (srv : String) (evs tr' : List Ev)
    (hq : ∀ e ∈ evs, isQueryEv e = true) (h0 : openAfter tr' = 0) :
    openAfter (.connect srv :: (evs ++ [.close] ++ tr')) = 0 := by
  show openAfterFrom 1 (evs ++ [.close] ++ tr') = 0
  rw [openAfterFrom_append, openAfterFrom_append, openAfterFrom_queries 1 evs hq]
  exact h0

theorem openAfter_fail_block (srv : String) (tr' p t : List Ev)
    (hind : ∀ p' t', p' ++ t' = tr' → openAfter p' ≤ 1)
    (h : p ++ t = .connectFail srv :: .close :: tr') : openAfter p ≤ 1 := by
  cases p with
  | nil => simp [openAfter, openAfterFrom]
  | cons a p' =>
    rw [List.cons_append, List.cons.injEq] at h
    obtain ⟨rfl, h'⟩ := h
    cases p' with
    | nil => simp [openAfter, openAfterFrom]
    | cons b p'' =>
      rw [List.cons_append, List.cons.injEq] at h'
      obtain ⟨rfl, h''⟩ := h'
      show openAfterFrom 0 p'' ≤ 1
      exact hind p'' t h''

theorem serverLoop_open (sha : Sha) (w : World) (multi : Bool) (addrs : List Address)
    (ss : List String) :
    (∀ p t, p ++ t = (serverLoop sha w multi addrs ss).2 → openAfter p ≤ 1) ∧
      openAfter (serverLoop sha w multi addrs ss).2 = 0 := by
  induction ss with
  | nil =>
    refine ⟨fun p t h => ?_, rfl⟩
    have hp : p = [] := (List.append_eq_nil.mp h).1
    subst hp
    simp [openAfter, openAfterFrom]
  | cons srv rest ih =>
    obtain ⟨ihp, ih0⟩ := ih
    cases hc : w.connectOK srv with
    | true =>
      rcases ha : attemptServer sha w multi addrs srv with ⟨res, evs⟩
      have hq : ∀ e ∈ evs, isQueryEv e = true := by
        have := attemptServer_query_only sha w multi addrs srv
        rw [ha] at this
        exact this
      cases res with
      | some r =>
        rw [serverLoop_cons_true sha w multi addrs srv rest hc, ha]
        constructor
        · intro p t h
          refine openAfter_conn_block srv evs [] p t hq ?_ ?_
          · intro p' t' h'
            obtain ⟨rfl, rfl⟩ := List.append_eq_nil.mp h'
            simp [openAfter, openAfterFrom]
          · rw [h]
            simp
        · have := openAfter_conn_block_total srv evs [] hq rfl
          simpa using this
      | none =>
        rw [serverLoop_cons_true sha w multi addrs srv rest hc, ha]
        exact ⟨fun p t h => openAfter_conn_block srv evs _ p t hq ihp h,
          openAfter_conn_block_total srv evs _ hq ih0⟩
    | false =>
      rw [serverLoop_cons_false sha w multi addrs srv rest hc]
      refine ⟨fun p t h => openAfter_fail_block srv _ p t ihp h, ?_⟩
      show openAfterFrom 0 _ = 0
      exact ih0

/-- Claim C5: at every instant during a request at most one connection
is open, and on every exit path (success, connect failure, query
failure) the connection is torn down before moving on: every initial
segment of the event trace has at most one net open connection, and the
full trace ends with none open (the success path closes after the
result is produced). -/
theorem C5_one_connection (sha : Sha) (w : World) (req : Req) :
    (∀ p t, p ++ t = (handleRequest sha w req).2 → openAfter p ≤ 1) ∧
      openAfter (handleRequest sha w req).2 = 0 := by
  by_cases hm : req.method = "POST"
  · have hh : handleRequest sha w req =
        serverLoop sha w req.multi (workingSet req.addressList) (serversToTry req) := by
      simp [handleRequest, hm]
    rw [hh]
    exact serverLoop_open sha w req.multi (workingSet req.addressList) (serversToTry req)
  · have hh : handleRequest sha w req = (.methodNotAllowed, []) := by
      simp [handleRequest, hm]
    rw [hh]
    refine ⟨fun p t h => ?_, rfl⟩
    obtain ⟨rfl, rfl⟩ := List.append_eq_nil.mp h
    simp [openAfter, openAfterFrom]

theorem C5_one_connection_witness :
    openAfter [Ev.connect "s:1"] ≤ 1 ∧
      openAfter (handleRequest shaX wAll reqEmptySingle).2 = 0 :=
  ⟨(C5_one_connection shaX wAll reqEmptySingle).1 [Ev.connect "s:1"]
      [.listUnspentCall "s:1" none, .getHistoryCall "s:1" none, .close] (by decide),
    (C5_one_connection shaX wAll reqEmptySingle).2⟩

theorem dedupAux_subset (seen : List String) (l : List Address) :
    ∀ a ∈ dedupAux seen l, a ∈ l := by
  induction l generalizing seen with
  | nil => intro a ha; simp [dedupAux] at ha
  | cons b t ih =>
    intro a ha
    by_cases hb : b.str ∈ seen
    · simp only [dedupAux, if_pos hb] at ha
      exact List.mem_cons_of_mem b (ih seen a ha)
    · simp only [dedupAux, if_neg hb] at ha
      rcases List.mem_cons.mp ha with rfl | ha'
      · simp
      · exact List.mem_cons_of_mem b (ih (b.str :: seen) a ha')

theorem workingSet_mem {l : List Address} {a : Address} (h : a ∈ workingSet l) :
    a ∈ l ∧ isValidAddress a = true := by
  rw [workingSet, List.mem_filter] at h
  exact ⟨dedupAux_subset [] l a h.1, h.2⟩

/-- Counterexample to claim C2 as stated: on a single-address request
whose working set is empty (here: no addresses supplied), the handler
still calls `getAddressDetails` on `addressesToCheck[0]` (undefined),
`getScriptHash` returns `null`, and that `null` placeholder is passed
straight into the remote `listunspent` query. -/
theorem C2_null_key_passed_cex :
    Ev.listUnspentCall "s:1" none ∈ (handleRequest shaX wAll reqEmptySingle).2 := by
  decide

/-- Claim C2 (amended): derivation yields the `null` failure for every
well-formed address that fails classification, and no null lookup key
reaches a remote query in batch mode or in single mode with a nonempty
working set; only a single-mode request with an empty working set sends
the null placeholder. -/
theorem C2_unsupported_address (sha : Sha) (w : World) (req : Req)
    (hwf : ∀ a ∈ req.addressList, WFAddress a)
    (hne : req.multi = true ∨ workingSet req.addressList ≠ []) :
    (∀ a : Address, WFAddress a → classifySpec a = none → getScriptHash sha a = none) ∧
      queryKeysPresent (handleRequest sha w req).2 := by
  refine ⟨fun a hw hc => classify_none_hash_none sha a hw hc, ?_⟩
  intro e he k hk
  by_cases hm : req.method = "POST"
  · have hh : handleRequest sha w req =
        serverLoop sha w req.multi (workingSet req.addressList) (serversToTry req) := by
      simp [handleRequest, hm]
    rw [hh] at he
    have hvalid : ∀ a ∈ workingSet req.addressList, (getScriptHash sha a).isSome = true := by
      intro a ha
      obtain ⟨hmem, hv⟩ := workingSet_mem ha
      exact getScriptHash_isSome sha a (hwf a hmem) hv
    rcases serverLoop_keys sha w req.multi (workingSet req.addressList) (serversToTry req)
        e he k hk with ⟨hmf, hk1⟩ | ⟨a, ha, hk2⟩
    · rcases hne with hmt | hws
      · rw [hmt] at hmf; cases hmf
      · rcases hws0 : workingSet req.addressList with _ | ⟨a, t⟩
        · exact absurd hws0 hws
        · rw [hws0] at hk1
          subst hk1
          exact hvalid a (by rw [hws0]; simp)
    · subst hk2
      exact hvalid a ha
  · have hh : handleRequest sha w req = (.methodNotAllowed, []) := by
      simp [handleRequest, hm]
    rw [hh] at he
    simp at he

theorem C2_unsupported_address_witness :
    queryKeysPresent (handleRequest shaX wAll reqTwoMulti).2 :=
  (C2_unsupported_address shaX wAll reqTwoMulti (by decide) (Or.inl rfl)).2

theorem runAll_fail (sha : Sha) (w : World) (srv : String) (l : List Address)
    (h : ∃ a ∈ l, (getAddressDetails sha w srv (some a) true).1 = none) :
    (runAll sha w srv l).1 = none := by
  induction l with
  | nil => simp at h
  | cons b t ih =>
    obtain ⟨a, ha, hfail⟩ := h
    rcases hd : getAddressDetails sha w srv (some b) true with ⟨res, evs⟩
    rcases List.mem_cons.mp ha with rfl | ha'
    · rw [hd] at hfail
      simp at hfail
      subst hfail
      rw [runAll, hd]
    · cases res with
      | none => rw [runAll, hd]
      | some d =>
        rcases hr : runAll sha w srv t with ⟨res', evs'⟩
        have := ih ⟨a, ha', hfail⟩
        rw [hr] at this
        simp at this
        subst this
        rw [runAll, hd, hr]

/-- Claim C3: the batch contract is all-or-nothing; if the query for any
single address of the batch fails against an endpoint, the whole batch
attempt against that endpoint fails (the thrown error, modelled as
`none`), and no partial batch response is produced by that attempt. -/
theorem C3_all_or_nothing (sha : Sha) (w : World) (srv : String) (addrs : List Address)
    (h : ∃ a ∈ addrs, (getAddressDetails sha w srv (some a) true).1 = none) :
    (attemptServer sha w true addrs srv).1 = none := by
  rcases hr : runAll sha w srv addrs with ⟨res, evs⟩
  have hn := runAll_fail sha w srv addrs h
  rw [hr] at hn
  simp at hn
  subst hn
  simp [attemptServer, hr]

theorem C3_all_or_nothing_witness :
    (attemptServer shaX wFail2 true [aL1, aL2, aL3] "s:1").1 = none :=
  C3_all_or_nothing shaX wFail2 "s:1" [aL1, aL2, aL3] ⟨aL2, by decide, by decide⟩

theorem countTx_spec (hist : List HistTx) :
    countTx hist = (hist.countP fun t => decide (0 < t.height),
      hist.countP fun t => decide (t.height ≤ 0)) := by
  suffices h : ∀ c u : Nat,
      hist.foldl (fun p tx => if tx.height > 0 then (p.1 + 1, p.2) else (p.1, p.2 + 1)) (c, u) =
        (c + hist.countP fun t => decide (0 < t.height),
          u + hist.countP fun t => decide (t.height ≤ 0)) by
    simpa [countTx] using h 0 0
  induction hist with
  | nil => intro c u; simp
  | cons t ts ih =>
    intro c u
    by_cases ht : 0 < t.height
    · have hne : ¬t.height ≤ 0 := by omega
      simp [List.countP_cons, ht, hne, List.foldl_cons, ih]
      omega
    · have hle : t.height ≤ 0 := by omega
      simp [List.countP_cons, ht, hle, List.foldl_cons, ih]
      omega

/-- Claim C7: on a successful single-address fetch the summary counts
are: confirmed = number of history entries with height > 0,
unconfirmed = number with height ≤ 0, total = history length. -/
theorem C7_history_counts (sha : Sha) (w : World) (srv : String) (a : Option Address)
    (ri : Bool) (hist : List HistTx)
    (hh : w.getHistory srv (getScriptHashU sha a) = some hist)
    (hs : ((getAddressDetails sha w srv a ri).1).isSome = true) :
    ((getAddressDetails sha w srv a ri).1.map Details.confirmedTransactions) =
      some (hist.countP fun t => decide (0 < t.height)) ∧
      ((getAddressDetails sha w srv a ri).1.map Details.unconfirmedTransactions) =
        some (hist.countP fun t => decide (t.height ≤ 0)) ∧
      ((getAddressDetails sha w srv a ri).1.map Details.totalTransactions) =
        some hist.length := by
  cases hl : w.listUnspent srv (getScriptHashU sha a) with
  | none => simp [getAddressDetails, hl] at hs
  | some us => refine ⟨?_, ?_, ?_⟩ <;> simp [getAddressDetails, hl, hh, countTx_spec]

theorem C7_history_counts_witness :
    ((getAddressDetails shaX wOne "s:1" (some aL1) true).1.map Details.confirmedTransactions) =
      some (([⟨3⟩, ⟨0⟩, ⟨-1⟩] : List HistTx).countP fun t => decide (0 < t.height)) ∧
      ((getAddressDetails shaX wOne "s:1" (some aL1) true).1.map
          Details.unconfirmedTransactions) =
        some (([⟨3⟩, ⟨0⟩, ⟨-1⟩] : List HistTx).countP fun t => decide (t.height ≤ 0)) ∧
      ((getAddressDetails shaX wOne "s:1" (some aL1) true).1.map Details.totalTransactions) =
        some ([⟨3⟩, ⟨0⟩, ⟨-1⟩] : List HistTx).length :=
  C7_history_counts shaX wOne "s:1" (some aL1) true [⟨3⟩, ⟨0⟩, ⟨-1⟩] (by decide) (by decide)

/-- Counterexample to claim C6 as stated: in single mode
(`returnInSatoshi = false`, the path used for single-address requests)
`getAddressDetails` itself — the core, not the presentation boundary —
divides the base-unit sum by 10^8: with one unspent output of value 1
the returned balance field is 1/10^8 rather than the integer 1
(in JS this division is `balance / 1e8`, a binary floating-point
operation; here it is taken exactly to expose where it happens). -/
theorem C6_division_inside_core_cex :
    ((getAddressDetails shaX wOne "s:1" (some aL1) false).1.map Details.balance) =
      some (1 / 100000000) ∧
      ((getAddressDetails shaX wOne "s:1" (some aL1) false).1.map Details.balance) ≠
        some ((1 : ℚ)) := by
  have h1 : ((getAddressDetails shaX wOne "s:1" (some aL1) false).1.map Details.balance) =
      some ((1 : ℚ) / 100000000) := by
    simp [getAddressDetails, getScriptHashU, getScriptHash, wOne, countTx]
  refine ⟨h1, ?_⟩
  rw [h1]
  intro hc
  rw [Option.some.injEq] at hc
  norm_num at hc

theorem getAddressDetails_sat_balance (sha : Sha) (w : World) (srv : String)
    (a : Option Address) (d : Details) (h : (getAddressDetails sha w srv a true).1 = some d) :
    ∃ m : ℕ, d.balance = (m : ℚ) := by
  cases hl : w.listUnspent srv (getScriptHashU sha a) with
  | none => simp [getAddressDetails, hl] at h
  | some us =>
    cases hh : w.getHistory srv (getScriptHashU sha a) with
    | none => simp [getAddressDetails, hl, hh] at h
    | some hist =>
      refine ⟨(us.map Utxo.value).sum, ?_⟩
      simp [getAddressDetails, hl, hh] at h
      subst h
      simp [Nat.cast_list_sum, List.map_map]

theorem runAll_balances (sha : Sha) (w : World) (srv : String) (l : List Address)
    (ds : List Details) (h : (runAll sha w srv l).1 = some ds) :
    ∀ d ∈ ds, ∃ m : ℕ, d.balance = (m : ℚ) := by
  induction l generalizing ds with
  | nil =>
    simp [runAll] at h
    subst h
    simp
  | cons b t ih =>
    rcases hd : getAddressDetails sha w srv (some b) true with ⟨res, evs⟩
    rw [runAll, hd] at h
    cases res with
    | none => simp at h
    | some d0 =>
      rcases hr : runAll sha w srv t with ⟨res', evs'⟩
      rw [hr] at h
      cases res' with
      | none => simp at h
      | some ds' =>
        simp at h
        subst h
        intro d hd'
        rcases List.mem_cons.mp hd' with rfl | hd''
        · exact getAddressDetails_sat_balance sha w srv (some b) d (by rw [hd])
        · exact ih ds' (by rw [hr]) d hd''

theorem sum_balances_natCast (ds : List Details)
    (h : ∀ d ∈ ds, ∃ m : ℕ, d.balance = (m : ℚ)) :
    ∃ m : ℕ, (ds.map Details.balance).sum = (m : ℚ) := by
  induction ds with
  | nil => exact ⟨0, by simp⟩
  | cons d t ih =>
    obtain ⟨m1, hm1⟩ := h d (by simp)
    obtain ⟨m2, hm2⟩ := ih fun x hx => h x (by simp [hx])
    refine ⟨m1 + m2, ?_⟩
    rw [List.map_cons, List.sum_cons, hm1, hm2]
    push_cast
    ring

/-- Claim C6 (amended): with `returnInSatoshi` (the batch path) the
balance is the exact integer base-unit sum of the unspent-output values
and the batch total is an integer; in single mode the conversion by
10^8 happens exactly once — but inside `getAddressDetails`, the core,
not at the presentation boundary (see the counterexample). -/
theorem C6_integer_base_unit (sha : Sha) (w : World) (srv : String) (a : Option Address)
    (us : List Utxo) (hist : List HistTx)
    (hl : w.listUnspent srv (getScriptHashU sha a) = some us)
    (hh : w.getHistory srv (getScriptHashU sha a) = some hist) :
    ((getAddressDetails sha w srv a true).1.map Details.balance) =
      some (((us.map Utxo.value).sum : ℕ) : ℚ) ∧
      ((getAddressDetails sha w srv a false).1.map Details.balance) =
        some ((((us.map Utxo.value).sum : ℕ) : ℚ) / 100000000) ∧
      (∀ (addrs : List Address) (r : Resp), (attemptServer sha w true addrs srv).1 = some r →
        ∃ m : ℕ, totalBalanceOf r = some ((m : ℚ))) := by
  refine ⟨by simp [getAddressDetails, hl, hh], by simp [getAddressDetails, hl, hh], ?_⟩
  intro addrs r hr
  rcases hrun : runAll sha w srv addrs with ⟨res, evs⟩
  rw [attemptServer] at hr
  rw [if_neg (by decide), hrun] at hr
  cases res with
  | none => simp at hr
  | some ds =>
    simp at hr
    subst hr
    obtain ⟨m, hm⟩ :=
      sum_balances_natCast ds (runAll_balances sha w srv addrs ds (by rw [hrun]))
    exact ⟨m, by simp [totalBalanceOf, hm]⟩

theorem C6_integer_base_unit_witness :
    ((getAddressDetails shaX wOne "s:1" (some aL1) true).1.map Details.balance) =
      some (((List.map Utxo.value [⟨1⟩]).sum : ℕ) : ℚ) ∧
      ((getAddressDetails shaX wOne "s:1" (some aL1) false).1.map Details.balance) =
        some ((((List.map Utxo.value [⟨1⟩]).sum : ℕ) : ℚ) / 100000000) :=
  ⟨(C6_integer_base_unit shaX wOne "s:1" (some aL1) [⟨1⟩] [⟨3⟩, ⟨0⟩, ⟨-1⟩]
      (by decide) (by decide)).1,
    (C6_integer_base_unit shaX wOne "s:1" (some aL1) [⟨1⟩] [⟨3⟩, ⟨0⟩, ⟨-1⟩]
      (by decide) (by decide)).2.1⟩

theorem dedupAux_sublist (seen : List String) (l : List Address) :
    List.Sublist (dedupAux seen l) l := by
  induction l generalizing seen with
  | nil => simp [dedupAux]
  | cons b t ih =>
    by_cases hb : b.str ∈ seen
    · rw [dedupAux, if_pos hb]
      exact (ih seen).cons b
    · rw [dedupAux, if_neg hb]
      exact (ih (b.str :: seen)).cons₂ b

theorem dedupAux_str_nodup (seen : List String) (l : List Address) :
    ((dedupAux seen l).map Address.str).Nodup ∧
      ∀ s ∈ (dedupAux seen l).map Address.str, s ∉ seen := by
  induction l generalizing seen with
  | nil => simp [dedupAux]
  | cons b t ih =>
    by_cases hb : b.str ∈ seen
    · rw [dedupAux, if_pos hb]
      exact ih seen
    · rw [dedupAux, if_neg hb]
      obtain ⟨ihn, ihs⟩ := ih (b.str :: seen)
      refine ⟨?_, ?_⟩
      · rw [List.map_cons, List.nodup_cons]
        refine ⟨fun hmem => ?_, ihn⟩
        exact (ihs b.str hmem) (by simp)
      · intro s hs
        rw [List.map_cons, List.mem_cons] at hs
        rcases hs with rfl | hs'
        · exact hb
        · intro hmem
          exact (ihs s hs') (by simp [hmem])

theorem dedupAux_cover (seen : List String) (l : List Address) (a : Address) (ha : a ∈ l) :
    a.str ∈ seen ∨ ∃ b ∈ dedupAux seen l, b.str = a.str := by
  induction l generalizing seen with
  | nil => simp at ha
  | cons b t ih =>
    by_cases hb : b.str ∈ seen
    · rw [dedupAux, if_pos hb]
      rcases List.mem_cons.mp ha with rfl | ha'
      · exact Or.inl hb
      · exact ih seen ha'
    · rw [dedupAux, if_neg hb]
      rcases List.mem_cons.mp ha with rfl | ha'
      · exact Or.inr ⟨a, by simp⟩
      · rcases ih (b.str :: seen) ha' with hs | ⟨c, hc, hcs⟩
        · rcases List.mem_cons.mp hs with heq | hs'
          · exact Or.inr ⟨b, by simp, heq.symm⟩
          · exact Or.inl hs'
        · exact Or.inr ⟨c, by simp [hc], hcs⟩

theorem runAll_length (sha : Sha) (w : World) (srv : String) (l : List Address)
    (ds : List Details) (h : (runAll sha w srv l).1 = some ds) : ds.length = l.length := by
  induction l generalizing ds with
  | nil =>
    simp [runAll] at h
    subst h
    rfl
  | cons b t ih =>
    rcases hd : getAddressDetails sha w srv (some b) true with ⟨res, evs⟩
    rw [runAll, hd] at h
    cases res with
    | none => simp at h
    | some d0 =>
      rcases hr : runAll sha w srv t with ⟨res', evs'⟩
      rw [hr] at h
      cases res' with
      | none => simp at h
      | some ds' =>
        simp at h
        subst h
        simp [ih ds' (by rw [hr])]

theorem attemptServer_fetched (sha : Sha) (w : World) (multi : Bool) (addrs : List Address)
    (srv : String) (r : Resp) (n : Nat) (h : (attemptServer sha w multi addrs srv).1 = some r)
    (hf : fetchedOf r = some n) : n = addrs.length := by
  cases multi with
  | false =>
    rcases hd : getAddressDetails sha w srv addrs.head? false with ⟨res, evs⟩
    simp [attemptServer, hd] at h
    cases res with
    | none => simp at h
    | some d =>
      simp at h
      subst h
      simp [fetchedOf] at hf
  | true =>
    rcases hr : runAll sha w srv addrs with ⟨res, evs⟩
    simp [attemptServer, hr] at h
    cases res with
    | none => simp at h
    | some ds =>
      simp at h
      subst h
      simp [fetchedOf] at hf
      rw [← hf]
      exact runAll_length sha w srv addrs ds (by rw [hr])

/-- Claim C8: before any aggregation the input list is de-duplicated by
address string keeping first occurrences in order (the working set is a
sublist of the input with pairwise-distinct strings) and filtered to
addresses that classify as valid; every valid input address is kept
(given consistent decoding of equal strings); and a batch response's
`totalAddressesFetched` equals the length of that working set. -/
theorem C8_working_set (l : List Address) (sha : Sha) (w : World) (req : Req) (n : Nat) :
    ((workingSet l).map Address.str).Nodup ∧
      List.Sublist (workingSet l) l ∧
      (∀ a ∈ workingSet l, isValidAddress a = true) ∧
      ((∀ a ∈ l, ∀ b ∈ l, a.str = b.str → a = b) →
        ∀ a ∈ l, isValidAddress a = true → a ∈ workingSet l) ∧
      (fetchedOf (handleRequest sha w req).1 = some n →
        n = (workingSet req.addressList).length) := by
  refine ⟨?_, ?_, ?_, ?_, ?_⟩
  · have hsub : List.Sublist (workingSet l) (dedupByStr l) := List.filter_sublist _
    exact ((dedupAux_str_nodup [] l).1).sublist (hsub.map Address.str)
  · exact (List.filter_sublist _).trans (dedupAux_sublist [] l)
  · intro a ha
    exact (workingSet_mem ha).2
  · intro hcons a ha hv
    rcases dedupAux_cover [] l a ha with hs | ⟨b, hb, hbs⟩
    · simp at hs
    · have hbl : b ∈ l := dedupAux_subset [] l b hb
      have : b = a := hcons b hbl a ha hbs
      subst this
      rw [workingSet, List.mem_filter]
      exact ⟨hb, hv⟩
  · intro hf
    by_cases hm : req.method = "POST"
    · have hh : handleRequest sha w req =
          serverLoop sha w req.multi (workingSet req.addressList) (serversToTry req) := by
        simp [handleRequest, hm]
      rw [hh] at hf
      have hne : (serverLoop sha w req.multi (workingSet req.addressList)
          (serversToTry req)).1 ≠ .serverError := by
        intro hcontra
        rw [hcontra] at hf
        simp [fetchedOf] at hf
      obtain ⟨s, _, _, hsome⟩ := serverLoop_success sha w req.multi
        (workingSet req.addressList) (serversToTry req) _ rfl hne
      exact attemptServer_fetched sha w req.multi (workingSet req.addressList) s _ n hsome hf
    · have hh : handleRequest sha w req = (.methodNotAllowed, []) := by
        simp [handleRequest, hm]
      rw [hh] at hf
      simp [fetchedOf] at hf

theorem C8_working_set_witness :
    ((workingSet [aL1, aL1, aL2]).map Address.str).Nodup ∧
      2 = (workingSet reqDupMulti.addressList).length :=
  ⟨(C8_working_set [aL1, aL1, aL2] shaX wAll reqDupMulti 2).1,
    (C8_working_set [aL1, aL1, aL2] shaX wAll reqDupMulti 2).2.2.2.2 (by decide)⟩

/-- Counterexample to claim C9 as stated: a batch request whose working
set is empty after filtering (here: one unclassifiable address) is not
rejected with a client-input error and does cause endpoint traffic —
the handler connects to the endpoint and returns a successful empty
batch with `totalAddressesFetched = 0`. -/
theorem C9_no_client_error_cex :
    (handleRequest shaX wAll reqBadMulti).1 = .multiOk [] 0 0 0 0 0 ∧
      Ev.connect "s:1" ∈ (handleRequest shaX wAll reqBadMulti).2 := by
  constructor
  · decide
  · decide

/-- Claim C9 (amended): a request whose working set is empty after
de-duplication and validity filtering is not rejected before network
activity; the handler still connects, and in batch mode the first
reachable endpoint yields a successful empty batch summary
(`totalAddressesFetched = 0`), with no client-input error response in
the protocol at all. -/
theorem C9_empty_set_still_connects (sha : Sha) (w : World) (req : Req) (s : String)
    (rest : List String) (hm : req.method = "POST") (hmt : req.multi = true)
    (hws : workingSet req.addressList = []) (hss : serversToTry req = s :: rest)
    (hc : w.connectOK s = true) :
    handleRequest sha w req = (.multiOk [] 0 0 0 0 0, [.connect s, .close]) := by
  have hh : handleRequest sha w req =
      serverLoop sha w req.multi (workingSet req.addressList) (serversToTry req) := by
    simp [handleRequest, hm]
  rw [hh, hws, hss, hmt]
  rw [serverLoop_cons_true sha w true [] s rest hc]
  have ha : attemptServer sha w true [] s = (some (.multiOk [] 0 0 0 0 0), []) := by
    simp [attemptServer, runAll]
  rw [ha]
  rfl

theorem C9_empty_set_still_connects_witness :
    handleRequest shaX wAll reqBadMulti = (.multiOk [] 0 0 0 0 0, [.connect "s:1", .close]) :=
  C9_empty_set_still_connects shaX wAll reqBadMulti "s:1" [] rfl rfl (by decide) rfl rfl

theorem attemptServer_single_head (sha : Sha) (w : World) (srv : String)
    (l1 l2 : List Address) (h : l1.head? = l2.head?) :
    attemptServer sha w false l1 srv = attemptServer sha w false l2 srv := by
  simp only [attemptServer]
  rw [h]
  simp

theorem serverLoop_single_head (sha : Sha) (w : World) (l1 l2 : List Address)
    (h : l1.head? = l2.head?) (ss : List String) :
    serverLoop sha w false l1 ss = serverLoop sha w false l2 ss := by
  induction ss with
  | nil => rfl
  | cons srv rest ih =>
    cases hc : w.connectOK srv with
    | true =>
      rw [serverLoop_cons_true sha w false l1 srv rest hc,
        serverLoop_cons_true sha w false l2 srv rest hc,
        attemptServer_single_head sha w srv l1 l2 h, ih]
    | false =>
      rw [serverLoop_cons_false sha w false l1 srv rest hc,
        serverLoop_cons_false sha w false l2 srv rest hc, ih]

/-- Claim C10: with the batch flag unset, only the first address of the
de-duplicated, filtered working set matters — two single-mode requests
whose working sets share the same head (no matter how many further
valid addresses one of them carries) produce identical responses and
traces; the extra addresses are silently ignored rather than rejected. -/
theorem C10_single_uses_first_only (sha : Sha) (w : World) (req₁ req₂ : Req)
    (h1 : req₁.method = "POST") (h2 : req₂.method = "POST")
    (hm1 : req₁.multi = false) (hm2 : req₂.multi = false)
    (hs : serversToTry req₁ = serversToTry req₂)
    (hh : (workingSet req₁.addressList).head? = (workingSet req₂.addressList).head?) :
    handleRequest sha w req₁ = handleRequest sha w req₂ := by
  have e1 : handleRequest sha w req₁ =
      serverLoop sha w false (workingSet req₁.addressList) (serversToTry req₁) := by
    simp [handleRequest, h1, ← hm1]
  have e2 : handleRequest sha w req₂ =
      serverLoop sha w false (workingSet req₂.addressList) (serversToTry req₂) := by
    simp [handleRequest, h2, ← hm2]
  rw [e1, e2, hs]
  exact serverLoop_single_head sha w _ _ hh (serversToTry req₂)

theorem C10_single_uses_first_only_witness :
    handleRequest shaX wAll reqTwoSingle = handleRequest shaX wAll reqOneSingle :=
  C10_single_uses_first_only shaX wAll reqTwoSingle reqOneSingle rfl rfl rfl rfl rfl
    (by decide)
